import Mathlib

/-!
Shallow embedding of the `statpool` metrics pool (statpool.go).

Modelling conventions:
* `float64` amounts, totals and the uniform random draw are modelled as `ℚ`;
* `time.Duration` (an `int64` count of nanoseconds) is modelled as `Int`;
* epoch-second timestamps (`int64`) are modelled as `Int`; the Go zero value
  `0` encodes "absent" (the JSON field carries `omitempty`);
* the Go `prefix` field is called `pfx` here (`prefix` is reserved in Lean);
* channels become explicit lists, the single-threaded aggregator goroutine
  becomes a fold over the serialized order in which its `select` statement
  handles events, and each spawned `send` goroutine's interaction with the
  network is a parameter (the transport is an external collaborator).
-/

namespace Statpool

/-- `ValueStat` from statpool.go: `{stat, value, t omitempty}`. -/
structure ValueStat where
  key : String
  value : ℚ
  timestamp : Int
deriving DecidableEq

/-- `CountStat` from statpool.go: `{stat, count, t omitempty}`. -/
structure CountStat where
  key : String
  count : ℚ
  timestamp : Int
deriving DecidableEq

/-- A pending emission: the Go code keeps `values []interface{}` holding
`*CountStat` and `*ValueStat` entries. -/
inductive Stat where
  | count : CountStat → Stat
  | value : ValueStat → Stat
deriving DecidableEq

/-- The part of `Pool` the emission operations read: the key prefix
(Go field `prefix`). -/
structure PoolConfig where
  pfx : String
deriving DecidableEq

/-- `NewPool` leaves `prefix` at its zero value, the empty string. -/
def NewPool : PoolConfig := { pfx := "" }

/-- `Pool.SetPrefix`. -/
def SetPrefix (p : PoolConfig) (s : String) : PoolConfig := { p with pfx := s }

/-- The `CountStat` that `Pool.Count` hands to `SendCount`:
`&CountStat{Key: p.prefix + key, Count: val}`. -/
def PoolCount (p : PoolConfig) (key : String) (val : ℚ) : CountStat :=
  { key := p.pfx ++ key, count := val, timestamp := 0 }

/-- The `ValueStat` that `Pool.Value` hands to `SendValue`:
`&ValueStat{Key: p.prefix + key, Value: val, Timestamp: timestamp.Unix()}`. -/
def PoolValue (p : PoolConfig) (key : String) (val : ℚ) (timestamp : Int) : ValueStat :=
  { key := p.pfx ++ key, value := val, timestamp := timestamp }

/-- The `ValueStat` that `Pool.Duration` hands to `SendValue`:
`&ValueStat{Key: p.prefix + key, Value: float64(val) / float64(time.Millisecond)}`
(`val` is in nanoseconds; `time.Millisecond` is `1000000`; no timestamp). -/
def PoolDuration (p : PoolConfig) (key : String) (val : Int) : ValueStat :=
  { key := p.pfx ++ key, value := (val : ℚ) / 1000000, timestamp := 0 }

/-- `Pool.SampledDuration`: the body is
`if rate < rand.Float64() { p.SendValue(...) }`, so with draw `u` the stat is
handed to `SendValue` exactly when `rate < u`; otherwise nothing is emitted. -/
def SampledDuration (p : PoolConfig) (key : String) (val : Int) (rate u : ℚ) :
    Option ValueStat :=
  if rate < u then
    some { key := p.pfx ++ key, value := (val : ℚ) / 1000000, timestamp := 0 }
  else
    none

/-- Capacity of the two ingress channels: `make(chan *CountStat, 512)`. -/
def chanCap : Nat := 512

/-- `Pool.SendCount`: non-blocking send with a `default` branch that drops the
stat and logs it (`%+v` prints its key and value). The second component is the
diagnostic: `some stat` when the channel was full and the stat was dropped. -/
def SendCount (q : List CountStat) (stat : CountStat) :
    List CountStat × Option CountStat :=
  if q.length < chanCap then (q ++ [stat], none) else (q, some stat)

/-- `Pool.SendValue`: same non-blocking send on the value channel. -/
def SendValue (q : List ValueStat) (stat : ValueStat) :
    List ValueStat × Option ValueStat :=
  if q.length < chanCap then (q ++ [stat], none) else (q, some stat)

/-! ### Aggregator loop state

The goroutine in `NewPool` owns `values = []interface{}{}` and
`counts = map[string]*CountStat{}`.  The map stores pointers into `values`
(the very objects appended there), so in this embedding the map is its key
set and the shared total lives in the unique `Stat.count` entry of `values`
with that key; mutating `stat.Count` through the map pointer is rendered as
updating that entry in place. -/

structure AggState where
  values : List Stat
  counts : List String
deriving DecidableEq

/-- The loop's initial state (and the state after `rotate_values`). -/
def initState : AggState := { values := [], counts := [] }

/-- In-place `stat.Count += a` through the aliased map pointer: add `a` to
every count entry of `values` whose key is `k` (there is exactly one such
entry whenever the key is in the map; see the invariant below). -/
def updateCount (values : List Stat) (k : String) (a : ℚ) : List Stat :=
  values.map fun s =>
    match s with
    | Stat.count c => if c.key = k then Stat.count { c with count := c.count + a } else s
    | Stat.value _ => s

/-- The `case v := <-p.count` branch of the aggregator loop:
if the key exists in `counts`, `stat.Count += v.Count`; otherwise the stat is
stored in the map and appended to `values`. -/
def processCount (st : AggState) (v : CountStat) : AggState :=
  if v.key ∈ st.counts then
    { values := updateCount st.values v.key v.count, counts := st.counts }
  else
    { values := st.values ++ [Stat.count v], counts := st.counts ++ [v.key] }

/-- The `case v := <-p.value` branch: append, never merge. -/
def processValue (st : AggState) (v : ValueStat) : AggState :=
  { values := st.values ++ [Stat.value v], counts := st.counts }

/-- One event as serialized by the loop's `select`. -/
inductive Event where
  | count : CountStat → Event
  | value : ValueStat → Event
  | tick : Event
  | flushReq : Event
  | stop : Event
deriving DecidableEq

/-- `true` for the two producer emissions. -/
def Event.isEmit : Event → Bool
  | Event.count _ => true
  | Event.value _ => true
  | _ => false

/-- Effect of one non-terminating event on the loop state.  `tick` and
`flushReq` call `rotate_values`, which hands the pending slice to `doflush`
and resets both structures.  (`stop` also rotates, but then returns; it is
handled by `runLoop` below.) -/
def processEvent (st : AggState) : Event → AggState
  | Event.count v => processCount st v
  | Event.value v => processValue st v
  | Event.tick => initState
  | Event.flushReq => initState
  | Event.stop => st

/-- The loop over a serialized event list. -/
def processEvents (st : AggState) (es : List Event) : AggState :=
  es.foldl processEvent st

/-! ### Flush: timestamp stamping, chunking, fan-out/fan-in -/

/-- `chunkSize = 3000`. -/
def chunkSize : Nat := 3000

/-- The stamping loop of `Pool.doflush`: `now := time.Now().Unix()` is taken
once, then every `*CountStat` in the batch gets `count.Timestamp = now`;
value stats are untouched. -/
def stampCounts (now : Int) (values : List Stat) : List Stat :=
  values.map fun s =>
    match s with
    | Stat.count c => Stat.count { c with timestamp := now }
    | Stat.value v => Stat.value v

/-- The chunking loop of `Pool.doflush`, written with explicit fuel so that it
is structural (the Go loop strips `chunkSize` elements per iteration, so
`l.length` iterations always suffice):
`for len(values) > chunkSize { chunks = append(chunks, values[:chunkSize]); values = values[chunkSize:] }; chunks = append(chunks, values)`. -/
def chunksOfAux : Nat → List Stat → List (List Stat)
  | 0, l => [l]
  | n + 1, l =>
    if chunkSize < l.length then
      l.take chunkSize :: chunksOfAux n (l.drop chunkSize)
    else
      [l]

/-- `Pool.doflush`'s chunk list for a batch. -/
def chunksOf (l : List Stat) : List (List Stat) := chunksOfAux l.length l

/-- The fan-in loop of `Pool.doflush`: read one result per chunk from `errs`
in arrival order and return the first non-nil error, else nil. -/
def firstErr : List (Option String) → Option String
  | [] => none
  | none :: rest => firstErr rest
  | some e :: _ => some e

/-- The number of receives the fan-in loop of `Pool.doflush` performs before
returning, when `arrivals` lists the per-chunk results in arrival order
(one per chunk): `for i := 0; i < len(chunks); i++` reads one result per
iteration and returns at the first non-nil error, leaving any remaining
chunk results — and the goroutines that will produce them — unwaited. -/
def readCount : List (Option String) → Nat
  | [] => 0
  | none :: rest => 1 + readCount rest
  | some _ :: _ => 1

/-- What one flush cycle did: the chunks handed to the transport (one
concurrent `send` goroutine each) and the error returned to the caller. -/
structure FlushOutcome where
  sent : List (List Stat)
  result : Option String
deriving DecidableEq

/-- `Pool.doflush values`: return nil immediately when the batch is empty;
otherwise stamp the counters with the single flush time, chunk, dispatch every
chunk, and fold the per-chunk results that arrive on `errs` (the list
`arrivals`, ordered by arrival) into the first error. -/
def doflush (now : Int) (values : List Stat) (arrivals : List (Option String)) :
    FlushOutcome :=
  if values.length = 0 then
    { sent := [], result := none }
  else
    { sent := chunksOf (stampCounts now values), result := firstErr arrivals }

/-- The aggregator loop run to completion: process events in order; on
`stop` perform the final synchronous flush of everything pending and return
its outcome, ignoring anything after; `none` when no stop arrived. -/
def runLoop (now : Int) (arrivals : List (Option String)) :
    AggState → List Event → Option FlushOutcome
  | _, [] => none
  | st, e :: rest =>
    match e with
    | Event.stop => some (doflush now st.values arrivals)
    | _ => runLoop now arrivals (processEvent st e) rest

/-! ### The send goroutine -/

/-- Decoding of the response body into `statResponse`; `fail` leaves the
Go struct at its zero value `{Status: 0, Message: ""}`. -/
inductive DecodeOutcome where
  | fail : String → DecodeOutcome
  | ok : Nat → String → DecodeOutcome
deriving DecidableEq

/-- Outcome of `p.client.Do(req)`: a transport error (in which case `resp`
is nil) or a response carrying an HTTP status code and a body. -/
inductive HttpOutcome where
  | netErr : String → HttpOutcome
  | resp : Nat → DecodeOutcome → HttpOutcome
deriving DecidableEq

/-- Observable behaviour of one `Pool.send` call: the sequence of results it
pushed onto `errs` in program order, the number of `unprocessed aggregate`
diagnostic lines (each carrying the chunk's full payload), and whether it
dereferenced the nil `*http.Response`. -/
structure SendTrace where
  msgs : List (Option String)
  diags : Nat
  panicked : Bool
deriving DecidableEq

/-- `Pool.send` line by line.  None of the error branches returns, so the
function keeps executing after pushing an error: after a nil-response
transport error it still evaluates `resp.Body` in `defer resp.Body.Close()`
(a nil-pointer dereference, which aborts the goroutine), and after a non-OK
status it still decodes the body and keeps pushing results. -/
def send (encErr reqErr : Option String) (h : HttpOutcome) : SendTrace :=
  let m0 : List (Option String) :=
    (match encErr with | some e => [some e] | none => []) ++
    (match reqErr with | some e => [some e] | none => [])
  match h with
  | HttpOutcome.netErr e =>
    { msgs := m0 ++ [some e], diags := 1, panicked := true }
  | HttpOutcome.resp code body =>
    let statusMsgs : List (Option String) :=
      if code ≠ 200 then [some ("Received http status code: " ++ toString code)] else []
    let statusDiags : Nat := if code ≠ 200 then 1 else 0
    let decodeMsgs : List (Option String) :=
      match body with | DecodeOutcome.fail e => [some e] | DecodeOutcome.ok _ _ => []
    let sStatus : Nat := match body with | DecodeOutcome.fail _ => 0 | DecodeOutcome.ok st _ => st
    let sMsg : String := match body with | DecodeOutcome.fail _ => "" | DecodeOutcome.ok _ m => m
    let appMsgs : List (Option String) :=
      if sStatus ≠ 200 then [some (toString sStatus ++ " : " ++ sMsg)] else []
    { msgs := m0 ++ statusMsgs ++ decodeMsgs ++ appMsgs ++ [none],
      diags := statusDiags, panicked := false }

/-! ### Observations on the aggregator state -/

/-- The aggregated counter entries of a pending list carrying the given key. -/
def countStatsFor (values : List Stat) (k : String) : List CountStat :=
  values.filterMap fun s =>
    match s with
    | Stat.count c => if c.key = k then some c else none
    | Stat.value _ => none

/-- The amounts of the counter deltas with key `k` in an event list, in
arrival order. -/
def deltasFor (es : List Event) (k : String) : List ℚ :=
  es.filterMap fun e =>
    match e with
    | Event.count v => if v.key = k then some v.count else none
    | _ => none

/-- The per-key invariant of the aggregator state: a key is in the map's
domain exactly when the pending list holds precisely one aggregated counter
for it (the object the map points at); keys outside the map have none. -/
def Inv (st : AggState) : Prop :=
  ∀ k : String,
    (k ∈ st.counts → (countStatsFor st.values k).length = 1)
    ∧ (k ∉ st.counts → countStatsFor st.values k = [])

/-- Folding a run of deltas into the current totals list for a key: no new
entry and no change when there are no deltas; a single fresh entry otherwise;
a single merged entry when one already exists. -/
def mergeTotals : List ℚ → List ℚ → List ℚ
  | cur, [] => cur
  | [], ds => [ds.sum]
  | t :: _, ds => [t + ds.sum]

/-! ### Helper lemmas -/

theorem chunkSize_pos : 0 < chunkSize := by norm_num [chunkSize]

theorem chunksOfAux_join (n : Nat) (l : List Stat) (h : l.length ≤ n) :
    (chunksOfAux n l).flatten = l := by
  induction n generalizing l with
  | zero => simp [chunksOfAux]
  | succ n ih =>
    rw [chunksOfAux]
    split
    · rename_i hlen
      have hpos := chunkSize_pos
      rw [List.flatten_cons, ih _ (by simp; omega), List.take_append_drop]
    · simp

theorem chunksOfAux_sizes (n : Nat) (l : List Stat) (h : l.length ≤ n)
    (c : List Stat) (hc : c ∈ chunksOfAux n l) : c.length ≤ chunkSize := by
  induction n generalizing l with
  | zero =>
    simp [chunksOfAux] at hc
    subst hc
    exact le_trans h (Nat.zero_le _)
  | succ n ih =>
    rw [chunksOfAux] at hc
    split at hc
    · rename_i hlen
      have hpos := chunkSize_pos
      rcases List.mem_cons.mp hc with h1 | h2
      · subst h1; simp
      · exact ih _ (by simp; omega) h2
    · rename_i hlen
      simp at hc
      subst hc
      omega

theorem chunksOfAux_pos (n : Nat) (l : List Stat) : 0 < (chunksOfAux n l).length := by
  cases n with
  | zero => simp [chunksOfAux]
  | succ n => rw [chunksOfAux]; split <;> simp

theorem chunksOf_join (l : List Stat) : (chunksOf l).flatten = l :=
  chunksOfAux_join l.length l le_rfl

theorem chunksOf_sizes (l : List Stat) (c : List Stat) (hc : c ∈ chunksOf l) :
    c.length ≤ chunkSize :=
  chunksOfAux_sizes l.length l le_rfl c hc

theorem chunksOf_two (l : List Stat) (h : chunkSize < l.length) :
    2 ≤ (chunksOf l).length := by
  unfold chunksOf
  obtain ⟨n, hn⟩ : ∃ n, l.length = n + 1 := ⟨l.length - 1, by omega⟩
  rw [hn, chunksOfAux, if_pos (by omega)]
  have := chunksOfAux_pos n (l.drop chunkSize)
  simp
  omega

theorem stampCounts_length (now : Int) (values : List Stat) :
    (stampCounts now values).length = values.length := by
  simp [stampCounts]

theorem stampCounts_count_mem (now : Int) (values : List Stat) (c : CountStat)
    (h : Stat.count c ∈ stampCounts now values) : c.timestamp = now := by
  simp only [stampCounts, List.mem_map] at h
  obtain ⟨s, _, hs⟩ := h
  cases s with
  | count c' => simp at hs; rw [← hs]
  | value v => simp at hs

theorem stampCounts_value_mem (now : Int) (values : List Stat) (v : ValueStat) :
    Stat.value v ∈ stampCounts now values ↔ Stat.value v ∈ values := by
  constructor
  · intro h
    simp only [stampCounts, List.mem_map] at h
    obtain ⟨s, hmem, hs⟩ := h
    cases s with
    | count c' => simp at hs
    | value v' => simp at hs; rwa [← hs]
  · intro h
    simp only [stampCounts, List.mem_map]
    exact ⟨Stat.value v, h, rfl⟩

theorem firstErr_eq_none_iff (l : List (Option String)) :
    firstErr l = none ↔ ∀ o ∈ l, o = none := by
  induction l with
  | nil => simp [firstErr]
  | cons hd tl ih =>
    cases hd with
    | none => simp [firstErr, ih]
    | some e => simp [firstErr]

theorem firstErr_mem (l : List (Option String)) (e : String)
    (h : firstErr l = some e) : some e ∈ l := by
  induction l with
  | nil => simp [firstErr] at h
  | cons hd tl ih =>
    cases hd with
    | none => simp [firstErr] at h; simp [ih h]
    | some e' => simp [firstErr] at h; simp [h]

theorem doflush_sent (now : Int) (values : List Stat)
    (arrivals : List (Option String)) (hne : values ≠ []) :
    (doflush now values arrivals).sent = chunksOf (stampCounts now values) := by
  rw [doflush, if_neg (by simpa using hne)]

theorem doflush_result (now : Int) (values : List Stat)
    (arrivals : List (Option String)) (hne : values ≠ []) :
    (doflush now values arrivals).result = firstErr arrivals := by
  rw [doflush, if_neg (by simpa using hne)]

theorem countStatsFor_cons (s : Stat) (t : List Stat) (k : String) :
    countStatsFor (s :: t) k =
      (match s with
        | Stat.count c => if c.key = k then [c] else []
        | Stat.value _ => []) ++ countStatsFor t k := by
  cases s with
  | count c =>
    by_cases h : c.key = k
    · simp [countStatsFor, List.filterMap_cons, h]
    · simp [countStatsFor, List.filterMap_cons, h]
  | value v => rfl

theorem countStatsFor_append (l1 l2 : List Stat) (k : String) :
    countStatsFor (l1 ++ l2) k = countStatsFor l1 k ++ countStatsFor l2 k := by
  simp [countStatsFor, List.filterMap_append]

theorem updateCount_cons (s : Stat) (t : List Stat) (ck : String) (a : ℚ) :
    updateCount (s :: t) ck a =
      (match s with
        | Stat.count c =>
          if c.key = ck then Stat.count { c with count := c.count + a } else s
        | Stat.value _ => s) :: updateCount t ck a := rfl

theorem countStatsFor_updateCount (l : List Stat) (ck : String) (a : ℚ) (k : String) :
    countStatsFor (updateCount l ck a) k =
      if ck = k then
        (countStatsFor l k).map (fun c => { c with count := c.count + a })
      else countStatsFor l k := by
  induction l with
  | nil =>
    simp only [updateCount, List.map_nil]
    split <;> rfl
  | cons s t ih =>
    rw [updateCount_cons, countStatsFor_cons, countStatsFor_cons]
    cases s with
    | value v => simpa using ih
    | count c =>
      by_cases hck : ck = k
      · subst hck
        by_cases hc : c.key = ck
        · simp [hc, ih]
        · simp [hc, ih]
      · by_cases hc : c.key = ck
        · have hck2 : ¬ c.key = k := by rw [hc]; exact hck
          simp [hc, hck, hck2, ih]
        · by_cases hk : c.key = k
          · have hck3 : ¬ k = ck := fun hh => hck hh.symm
            simp [hc, hck, hk, hck3, ih]
          · simp [hc, hck, hk, ih]

theorem mergeTotals_nil_right (cur : List ℚ) : mergeTotals cur [] = cur := by
  cases cur <;> rfl

theorem mergeTotals_singleton (x : ℚ) (ds : List ℚ) :
    mergeTotals [x] ds = [x + ds.sum] := by
  cases ds with
  | nil => simp [mergeTotals]
  | cons d ds => simp [mergeTotals]

theorem mergeTotals_nil_cons (d : ℚ) (ds : List ℚ) :
    mergeTotals [] (d :: ds) = [(d :: ds).sum] := rfl

theorem mergeTotals_bump (x a : ℚ) (ds : List ℚ) :
    mergeTotals [x + a] ds = mergeTotals [x] (a :: ds) := by
  rw [mergeTotals_singleton, mergeTotals_singleton]
  simp [List.sum_cons]
  ring

theorem mergeTotals_fresh (a : ℚ) (ds : List ℚ) :
    mergeTotals [a] ds = mergeTotals [] (a :: ds) := by
  rw [mergeTotals_singleton, mergeTotals_nil_cons]
  simp [List.sum_cons]

theorem countStatsFor_count_singleton (c : CountStat) (k : String) :
    countStatsFor [Stat.count c] k = if c.key = k then [c] else [] := by
  by_cases h : c.key = k <;> simp [countStatsFor, List.filterMap_cons, h]

theorem countStatsFor_processValue (st : AggState) (v : ValueStat) (k : String) :
    countStatsFor (processValue st v).values k = countStatsFor st.values k := by
  rw [processValue]
  show countStatsFor (st.values ++ [Stat.value v]) k = _
  rw [countStatsFor_append]
  simp [countStatsFor]

theorem deltasFor_cons_value (v : ValueStat) (rest : List Event) (k : String) :
    deltasFor (Event.value v :: rest) k = deltasFor rest k := rfl

theorem deltasFor_cons_count (v : CountStat) (rest : List Event) (k : String) :
    deltasFor (Event.count v :: rest) k =
      if v.key = k then v.count :: deltasFor rest k else deltasFor rest k := by
  by_cases h : v.key = k <;> simp [deltasFor, List.filterMap_cons, h]

theorem inv_initState : Inv initState := by
  intro k
  exact ⟨fun h => by simp [initState] at h, fun _ => rfl⟩

theorem inv_processValue (st : AggState) (v : ValueStat) (h : Inv st) :
    Inv (processValue st v) := by
  intro k
  have hk := h k
  rw [countStatsFor_processValue]
  exact hk

theorem inv_processCount (st : AggState) (v : CountStat) (h : Inv st) :
    Inv (processCount st v) := by
  rw [processCount]
  split
  · rename_i hmem
    intro k
    have hk := h k
    constructor
    · intro hkm
      show (countStatsFor (updateCount st.values v.key v.count) k).length = 1
      rw [countStatsFor_updateCount]
      split
      · rw [List.length_map]; exact hk.1 hkm
      · exact hk.1 hkm
    · intro hkm
      show countStatsFor (updateCount st.values v.key v.count) k = []
      rw [countStatsFor_updateCount]
      split
      · rw [hk.2 hkm]; rfl
      · exact hk.2 hkm
  · rename_i hmem
    intro k
    have hk := h k
    constructor
    · intro hkm
      show (countStatsFor (st.values ++ [Stat.count v]) k).length = 1
      rw [countStatsFor_append, countStatsFor_count_singleton]
      rcases List.mem_append.mp hkm with h1 | h2
      · by_cases hkv : v.key = k
        · exact absurd (hkv ▸ h1) hmem
        · rw [if_neg hkv]
          simp [hk.1 h1]
      · have hkv : k = v.key := by simpa using h2
        subst hkv
        rw [hk.2 hmem, if_pos rfl]
        rfl
    · intro hkm
      show countStatsFor (st.values ++ [Stat.count v]) k = []
      have hk1 : k ∉ st.counts := fun hh => hkm (List.mem_append.mpr (Or.inl hh))
      have hk2 : ¬ v.key = k := fun hh => hkm (List.mem_append.mpr (Or.inr (by simp [hh])))
      rw [countStatsFor_append, countStatsFor_count_singleton, hk.2 hk1, if_neg hk2]
      rfl

theorem inv_processEvent (st : AggState) (e : Event) (h : Inv st) :
    Inv (processEvent st e) := by
  cases e with
  | count v => exact inv_processCount st v h
  | value v => exact inv_processValue st v h
  | tick => exact inv_initState
  | flushReq => exact inv_initState
  | stop => exact h

theorem inv_processEvents (st : AggState) (es : List Event) (h : Inv st) :
    Inv (processEvents st es) := by
  induction es generalizing st with
  | nil => exact h
  | cons e rest ih => exact ih (processEvent st e) (inv_processEvent st e h)

theorem processEvents_totals (es : List Event) (st : AggState) (hInv : Inv st)
    (he : ∀ e ∈ es, e.isEmit = true) (k : String) :
    (countStatsFor (processEvents st es).values k).map CountStat.count
      = mergeTotals ((countStatsFor st.values k).map CountStat.count) (deltasFor es k) := by
  induction es generalizing st with
  | nil => rw [show deltasFor [] k = [] from rfl, mergeTotals_nil_right]; rfl
  | cons e rest ih =>
    have he0 : e.isEmit = true := he e (List.mem_cons_self _ _)
    have herest : ∀ x ∈ rest, x.isEmit = true :=
      fun x hx => he x (List.mem_cons_of_mem _ hx)
    cases e with
    | tick => simp [Event.isEmit] at he0
    | flushReq => simp [Event.isEmit] at he0
    | stop => simp [Event.isEmit] at he0
    | value v =>
      have hstep : processEvents st (Event.value v :: rest)
          = processEvents (processValue st v) rest := rfl
      rw [hstep, ih (processValue st v) (inv_processValue st v hInv) herest,
        countStatsFor_processValue, deltasFor_cons_value]
    | count v =>
      have hstep : processEvents st (Event.count v :: rest)
          = processEvents (processCount st v) rest := rfl
      rw [hstep, ih (processCount st v) (inv_processCount st v hInv) herest,
        deltasFor_cons_count]
      by_cases hmem : v.key ∈ st.counts
      · have hvals : countStatsFor (processCount st v).values k =
            if v.key = k then
              (countStatsFor st.values k).map
                (fun c => { c with count := c.count + v.count })
            else countStatsFor st.values k := by
          rw [processCount, if_pos hmem]
          exact countStatsFor_updateCount st.values v.key v.count k
        rw [hvals]
        by_cases hk : v.key = k
        · rw [if_pos hk, if_pos hk]
          have h1 := (hInv k).1 (hk ▸ hmem)
          obtain ⟨c, hc⟩ := List.length_eq_one.mp h1
          rw [hc]
          simp only [List.map_cons, List.map_nil]
          exact mergeTotals_bump c.count v.count (deltasFor rest k)
        · rw [if_neg hk, if_neg hk]
      · have hvals : countStatsFor (processCount st v).values k =
            countStatsFor st.values k ++ (if v.key = k then [v] else []) := by
          rw [processCount, if_neg hmem]
          show countStatsFor (st.values ++ [Stat.count v]) k = _
          rw [countStatsFor_append, countStatsFor_count_singleton]
        rw [hvals]
        by_cases hk : v.key = k
        · rw [if_pos hk, if_pos hk]
          have h0 : countStatsFor st.values k = [] := (hInv k).2 (hk ▸ hmem)
          rw [h0]
          simp only [List.nil_append, List.map_cons, List.map_nil]
          exact mergeTotals_fresh v.count (deltasFor rest k)
        · rw [if_neg hk, if_neg hk]
          simp

theorem countStatsFor_stampCounts (now : Int) (l : List Stat) (k : String) :
    countStatsFor (stampCounts now l) k
      = (countStatsFor l k).map (fun c => { c with timestamp := now }) := by
  induction l with
  | nil => rfl
  | cons s t ih =>
    cases s with
    | count c =>
      rw [show stampCounts now (Stat.count c :: t)
          = Stat.count { c with timestamp := now } :: stampCounts now t from rfl]
      rw [countStatsFor_cons, countStatsFor_cons]
      by_cases h : c.key = k
      · simp [h, ih]
      · simp [h, ih]
    | value v =>
      rw [show stampCounts now (Stat.value v :: t)
          = Stat.value v :: stampCounts now t from rfl]
      rw [countStatsFor_cons, countStatsFor_cons]
      simpa using ih

/-! ### Claim theorems -/

/-- Claim C1.  The claim says `SampledDuration` emits with probability `rate`
(always at `rate = 1`, never at `rate = 0`), but the code's test is
`if rate < rand.Float64()`: for every possible draw `u ∈ [0,1)` a call with
`rate = 1` emits nothing, and a call with `rate = 0` emits whenever the draw
is positive — the sampling condition is inverted, so the code emits with
probability `1 - rate`. -/
theorem c1_sampling_inverted (p : PoolConfig) (key : String) (d : Int) (u : ℚ)
    (_h0 : 0 ≤ u) (h1 : u < 1) :
    SampledDuration p key d 1 u = none
    ∧ (0 < u → (SampledDuration p key d 0 u).isSome = true) := by
  constructor
  · rw [SampledDuration, if_neg (not_lt.mpr (le_of_lt h1))]
  · intro hu
    rw [SampledDuration, if_pos hu]
    rfl

theorem c1_sampling_inverted_witness :
    (0 : ℚ) ≤ 1 / 2 ∧ (1 / 2 : ℚ) < 1
    ∧ (SampledDuration NewPool "k" 5000000 1 (1 / 2) = none
       ∧ (0 < (1 / 2 : ℚ) →
            (SampledDuration NewPool "k" 5000000 0 (1 / 2)).isSome = true)) :=
  ⟨by norm_num, by norm_num,
    c1_sampling_inverted NewPool "k" 5000000 (1 / 2) (by norm_num) (by norm_num)⟩

/-- Claim C9.  A flush with zero pending items returns success immediately and
dispatches no chunk to the transport: `doflush` returns nil before chunking or
sending when `len(values) == 0`. -/
theorem c9_empty_flush_noop (now : Int) (arrivals : List (Option String)) :
    doflush now [] arrivals = { sent := [], result := none } := rfl

/-- Claim C10.  Every stat handed to the ingress channels by `Count`, `Value`,
`Duration` and `SampledDuration` carries the pool's current prefix
concatenated in front of the caller's key; the prefix starts empty in
`NewPool` and is replaced by `SetPrefix`. -/
theorem c10_keys_prefixed (p : PoolConfig) (key s : String) (val : ℚ)
    (ts d : Int) (rate u : ℚ) :
    (PoolCount p key val).key = p.pfx ++ key
    ∧ (PoolValue p key val ts).key = p.pfx ++ key
    ∧ (PoolDuration p key d).key = p.pfx ++ key
    ∧ (∀ vs, SampledDuration p key d rate u = some vs → vs.key = p.pfx ++ key)
    ∧ NewPool.pfx = ""
    ∧ ( SetPrefix p s).pfx = s := by
  refine ⟨rfl, rfl, rfl, ?_, rfl, rfl⟩
  intro vs h
  rw [SampledDuration] at h
  split at h
  · cases h; rfl
  · cases h

theorem c10_keys_prefixed_witness :
    (PoolCount NewPool "k" 3).key = NewPool.pfx ++ "k"
    ∧ (PoolValue NewPool "k" 3 9).key = NewPool.pfx ++ "k"
    ∧ (PoolDuration NewPool "k" 5000000).key = NewPool.pfx ++ "k"
    ∧ (∀ vs, SampledDuration NewPool "k" 5000000 (1 / 2) (3 / 4) = some vs →
        vs.key = NewPool.pfx ++ "k")
    ∧ NewPool.pfx = ""
    ∧ ( SetPrefix NewPool "p:").pfx = "p:" :=
  c10_keys_prefixed NewPool "k" "p:" 3 9 5000000 (1 / 2) (3 / 4)

/-- Claim C4.  For a non-empty flush the chunk set dispatched to the transport
is the full chunk list and does not depend on any chunk's outcome (no
cancellation of siblings — all goroutines are spawned before the first result
is read); given one result per chunk collected in arrival order (`arrivals`, a
permutation of the per-chunk outcomes), the cycle succeeds exactly when every
chunk succeeded, and on failure the returned error is the first error
observed, which is one of the failed chunks' errors. -/
theorem c4_fanout_first_error (now : Int) (values : List Stat)
    (arrivals outcomes : List (Option String))
    (hne : values ≠ [])
    (hperm : arrivals.Perm outcomes)
    (_hlen : outcomes.length = ((doflush now values arrivals).sent).length) :
    ((doflush now values arrivals).sent = chunksOf (stampCounts now values)
      ∧ ∀ arrivals2, (doflush now values arrivals2).sent
          = (doflush now values arrivals).sent)
    ∧ ((doflush now values arrivals).result = none ↔ ∀ o ∈ outcomes, o = none)
    ∧ (∀ e, (doflush now values arrivals).result = some e → some e ∈ outcomes)
    ∧ (doflush now values arrivals).result = firstErr arrivals := by
  refine ⟨⟨doflush_sent now values arrivals hne, ?_⟩, ?_, ?_, ?_⟩
  · intro arrivals2
    rw [doflush_sent now values arrivals hne, doflush_sent now values arrivals2 hne]
  · rw [doflush_result now values arrivals hne, firstErr_eq_none_iff]
    constructor
    · intro h o ho
      exact h o (hperm.mem_iff.mpr ho)
    · intro h o ho
      exact h o (hperm.mem_iff.mp ho)
  · intro e he
    rw [doflush_result now values arrivals hne] at he
    exact hperm.mem_iff.mp (firstErr_mem arrivals e he)
  · exact doflush_result now values arrivals hne

theorem c4_fanout_first_error_witness :
    ([Stat.value ⟨"a", 1, 0⟩] ≠ ([] : List Stat))
    ∧ [some "boom"].Perm [some "boom"]
    ∧ ([some "boom"] : List (Option String)).length
        = ((doflush 7 [Stat.value ⟨"a", 1, 0⟩] [some "boom"]).sent).length
    ∧ (((doflush 7 [Stat.value ⟨"a", 1, 0⟩] [some "boom"]).sent
          = chunksOf (stampCounts 7 [Stat.value ⟨"a", 1, 0⟩])
        ∧ ∀ arrivals2, (doflush 7 [Stat.value ⟨"a", 1, 0⟩] arrivals2).sent
            = (doflush 7 [Stat.value ⟨"a", 1, 0⟩] [some "boom"]).sent)
      ∧ ((doflush 7 [Stat.value ⟨"a", 1, 0⟩] [some "boom"]).result = none
          ↔ ∀ o ∈ ([some "boom"] : List (Option String)), o = none)
      ∧ (∀ e, (doflush 7 [Stat.value ⟨"a", 1, 0⟩] [some "boom"]).result = some e
          → some e ∈ ([some "boom"] : List (Option String)))
      ∧ (doflush 7 [Stat.value ⟨"a", 1, 0⟩] [some "boom"]).result
          = firstErr [some "boom"]) :=
  ⟨by simp, List.Perm.refl _,
    by simp [doflush, chunksOf, chunksOfAux, stampCounts, chunkSize],
    c4_fanout_first_error 7 [Stat.value ⟨"a", 1, 0⟩] [some "boom"]
      [some "boom"] (by simp) (List.Perm.refl _)
      (by simp [doflush, chunksOf, chunksOfAux, stampCounts, chunkSize])⟩

/-- Claim C5.  The claim says a failed transport call yields exactly one
chunk-level failure result and no further use of the absent or failed
response.  The code does preserve the payload in a diagnostic and never
retries, but none of `send`'s error branches returns: after a transport error
(`resp` nil) it queues the error and then evaluates `resp.Body` in
`defer resp.Body.Close()`, a nil-pointer dereference that panics, and after a
non-OK status with a malformed body it keeps going and queues four results
for the single chunk. -/
theorem c5_send_failure_behaviour :
    (send none none (HttpOutcome.netErr "connection refused")).panicked = true
    ∧ (send none none (HttpOutcome.netErr "connection refused")).msgs
        = [some "connection refused"]
    ∧ (send none none (HttpOutcome.netErr "connection refused")).diags = 1
    ∧ (send none none (HttpOutcome.resp 500 (DecodeOutcome.fail "unexpected EOF"))).msgs.length
        = 4 :=
  ⟨rfl, rfl, rfl, rfl⟩

/-- Claim C6.  With an ingress channel at capacity, `SendCount`/`SendValue`
leave the channel unchanged, return at once (they are total functions whose
signature carries no error), and emit a diagnostic naming the dropped stat
(hence its key and value); since the channel is unchanged, the aggregator
state the next flush snapshots — and hence the flush itself — is exactly what
it would have been had the emission never happened. -/
theorem c6_drop_on_full (qc : List CountStat) (qv : List ValueStat)
    (c : CountStat) (v : ValueStat)
    (hc : qc.length = chanCap) (hv : qv.length = chanCap) :
    SendCount qc c = (qc, some c)
    ∧ SendValue qv v = (qv, some v)
    ∧ processEvents initState (((SendCount qc c).1).map Event.count)
        = processEvents initState (qc.map Event.count)
    ∧ processEvents initState (((SendValue qv v).1).map Event.value)
        = processEvents initState (qv.map Event.value) := by
  have h1 : ¬ qc.length < chanCap := by omega
  have h2 : ¬ qv.length < chanCap := by omega
  refine ⟨?_, ?_, ?_, ?_⟩ <;> simp [SendCount, SendValue, h1, h2]

theorem c6_drop_on_full_witness :
    (List.replicate chanCap (⟨"k", 1, 0⟩ : CountStat)).length = chanCap
    ∧ (List.replicate chanCap (⟨"v", 2, 5⟩ : ValueStat)).length = chanCap
    ∧ (SendCount (List.replicate chanCap ⟨"k", 1, 0⟩) ⟨"k2", 3, 0⟩
        = (List.replicate chanCap ⟨"k", 1, 0⟩, some ⟨"k2", 3, 0⟩)
      ∧ SendValue (List.replicate chanCap ⟨"v", 2, 5⟩) ⟨"v2", 4, 6⟩
          = (List.replicate chanCap ⟨"v", 2, 5⟩, some ⟨"v2", 4, 6⟩)
      ∧ processEvents initState
          (((SendCount (List.replicate chanCap ⟨"k", 1, 0⟩) ⟨"k2", 3, 0⟩).1).map Event.count)
          = processEvents initState ((List.replicate chanCap ⟨"k", 1, 0⟩).map Event.count)
      ∧ processEvents initState
          (((SendValue (List.replicate chanCap ⟨"v", 2, 5⟩) ⟨"v2", 4, 6⟩).1).map Event.value)
          = processEvents initState ((List.replicate chanCap ⟨"v", 2, 5⟩).map Event.value)) :=
  ⟨List.length_replicate _ _, List.length_replicate _ _,
    c6_drop_on_full _ _ _ _ (List.length_replicate _ _) (List.length_replicate _ _)⟩

/-- Claim C7.  For a non-empty flush the dispatched chunks are contiguous
slices whose concatenation is exactly the (stamped) pending list — nothing
duplicated, nothing omitted — each chunk is at most `chunkSize` long, and a
batch longer than `chunkSize` yields at least two chunks (hence multiple
concurrent transport calls). -/
theorem c7_chunking (now : Int) (values : List Stat)
    (arrivals : List (Option String)) (hne : values ≠ []) :
    ((doflush now values arrivals).sent).flatten = stampCounts now values
    ∧ (∀ c ∈ (doflush now values arrivals).sent, c.length ≤ chunkSize)
    ∧ (chunkSize < values.length → 2 ≤ (doflush now values arrivals).sent.length) := by
  rw [doflush_sent now values arrivals hne]
  refine ⟨chunksOf_join _, fun c hc => chunksOf_sizes _ c hc, fun h => ?_⟩
  exact chunksOf_two _ (by rw [stampCounts_length]; exact h)

theorem c7_chunking_witness :
    ([Stat.value ⟨"a", 1, 0⟩] ≠ ([] : List Stat))
    ∧ (((doflush 7 [Stat.value ⟨"a", 1, 0⟩] []).sent).flatten
        = stampCounts 7 [Stat.value ⟨"a", 1, 0⟩]
      ∧ (∀ c ∈ (doflush 7 [Stat.value ⟨"a", 1, 0⟩] []).sent, c.length ≤ chunkSize)
      ∧ (chunkSize < ([Stat.value ⟨"a", 1, 0⟩] : List Stat).length
          → 2 ≤ (doflush 7 [Stat.value ⟨"a", 1, 0⟩] []).sent.length)) :=
  ⟨by simp, c7_chunking 7 [Stat.value ⟨"a", 1, 0⟩] [] (by simp)⟩

/-- Claim C8.  Every aggregated counter in the batch a flush transmits carries
the same timestamp `now`, read once when the flush cycle begins; point values
pass through the stamping loop unchanged, so they keep the timestamp fixed at
emit time — `Pool.Value` stores the caller's timestamp, and `Pool.Duration`
stores the zero value, which `omitempty` leaves absent on the wire. -/
theorem c8_flush_timestamps (now ts d : Int) (values : List Stat)
    (p : PoolConfig) (key : String) (val : ℚ) :
    (∀ c : CountStat, Stat.count c ∈ stampCounts now values → c.timestamp = now)
    ∧ (∀ v : ValueStat, Stat.value v ∈ stampCounts now values ↔ Stat.value v ∈ values)
    ∧ (PoolValue p key val ts).timestamp = ts
    ∧ (PoolDuration p key d).timestamp = 0 :=
  ⟨fun c hc => stampCounts_count_mem now values c hc,
   fun v => stampCounts_value_mem now values v, rfl, rfl⟩

theorem c8_flush_timestamps_witness :
    (∀ c : CountStat,
        Stat.count c ∈ stampCounts 42 [Stat.count ⟨"k", 1, 0⟩, Stat.value ⟨"v", 2, 5⟩]
        → c.timestamp = 42)
    ∧ (∀ v : ValueStat,
        Stat.value v ∈ stampCounts 42 [Stat.count ⟨"k", 1, 0⟩, Stat.value ⟨"v", 2, 5⟩]
        ↔ Stat.value v ∈ [Stat.count ⟨"k", 1, 0⟩, Stat.value ⟨"v", 2, 5⟩])
    ∧ (PoolValue NewPool "players" 2 99).timestamp = 99
    ∧ (PoolDuration NewPool "quickest" 1000000).timestamp = 0 :=
  c8_flush_timestamps 42 99 1000000 [Stat.count ⟨"k", 1, 0⟩, Stat.value ⟨"v", 2, 5⟩]
    NewPool "players" 2

/-- Claim C2.  After any sequence of emissions processed by the aggregator
loop since the last flush (or process start), the pending state satisfies the
invariant — a key is in the counter map exactly when exactly one aggregated
counter for it sits in the pending list — and the totals of the pending
counters for a key are exactly the sum of the deltas processed for that key
(no entry at all when there were none); consequently the stamped batch a
flush transmits carries exactly one record for the key, with total equal to
the sum of the amounts. -/
theorem c2_counter_merge (es : List Event) (now : Int) (k : String)
    (he : ∀ e ∈ es, e.isEmit = true) :
    Inv (processEvents initState es)
    ∧ (countStatsFor (processEvents initState es).values k).map CountStat.count
        = (if deltasFor es k = [] then [] else [(deltasFor es k).sum])
    ∧ (deltasFor es k ≠ [] →
        (countStatsFor (stampCounts now (processEvents initState es).values) k).map
            CountStat.count
          = [(deltasFor es k).sum]) := by
  have hInv := inv_processEvents initState es inv_initState
  have htot := processEvents_totals es initState inv_initState he k
  have hbase : countStatsFor initState.values k = [] := rfl
  rw [hbase] at htot
  simp only [List.map_nil] at htot
  have hshape : mergeTotals [] (deltasFor es k)
      = (if deltasFor es k = [] then [] else [(deltasFor es k).sum]) := by
    cases h : deltasFor es k with
    | nil => simp [mergeTotals]
    | cons d ds => simp [mergeTotals]
  have hmain := htot.trans hshape
  refine ⟨hInv, hmain, fun hne => ?_⟩
  rw [countStatsFor_stampCounts, List.map_map]
  have hcomp : (CountStat.count ∘ fun c : CountStat => { c with timestamp := now })
      = CountStat.count := funext fun c => rfl
  rw [hcomp, hmain, if_neg hne]

theorem c2_counter_merge_witness :
    (∀ e ∈ [Event.count ⟨"darts", 1, 0⟩, Event.count ⟨"darts", 4, 0⟩,
        Event.value ⟨"players", 2, 9⟩], e.isEmit = true)
    ∧ (Inv (processEvents initState [Event.count ⟨"darts", 1, 0⟩,
          Event.count ⟨"darts", 4, 0⟩, Event.value ⟨"players", 2, 9⟩])
      ∧ (countStatsFor (processEvents initState [Event.count ⟨"darts", 1, 0⟩,
            Event.count ⟨"darts", 4, 0⟩, Event.value ⟨"players", 2, 9⟩]).values
            "darts").map CountStat.count
          = (if deltasFor [Event.count ⟨"darts", 1, 0⟩, Event.count ⟨"darts", 4, 0⟩,
                Event.value ⟨"players", 2, 9⟩] "darts" = [] then []
             else [(deltasFor [Event.count ⟨"darts", 1, 0⟩, Event.count ⟨"darts", 4, 0⟩,
                Event.value ⟨"players", 2, 9⟩] "darts").sum])
      ∧ (deltasFor [Event.count ⟨"darts", 1, 0⟩, Event.count ⟨"darts", 4, 0⟩,
            Event.value ⟨"players", 2, 9⟩] "darts" ≠ [] →
          (countStatsFor (stampCounts 42 (processEvents initState
              [Event.count ⟨"darts", 1, 0⟩, Event.count ⟨"darts", 4, 0⟩,
                Event.value ⟨"players", 2, 9⟩]).values) "darts").map CountStat.count
            = [(deltasFor [Event.count ⟨"darts", 1, 0⟩, Event.count ⟨"darts", 4, 0⟩,
                Event.value ⟨"players", 2, 9⟩] "darts").sum])) :=
  ⟨by intro e he; fin_cases he <;> rfl,
    c2_counter_merge _ 42 "darts" (by intro e he; fin_cases he <;> rfl)⟩

theorem runLoop_cons_ne_stop (now : Int) (arrivals : List (Option String))
    (st : AggState) (e : Event) (rest : List Event) (he : e ≠ Event.stop) :
    runLoop now arrivals st (e :: rest)
      = runLoop now arrivals (processEvent st e) rest := by
  cases e with
  | stop => exact absurd rfl he
  | count v => rfl
  | value v => rfl
  | tick => rfl
  | flushReq => rfl

theorem runLoop_drain (now : Int) (arrivals : List (Option String))
    (st : AggState) (es rest : List Event) (he : ∀ e ∈ es, e ≠ Event.stop) :
    runLoop now arrivals st (es ++ Event.stop :: rest)
      = some (doflush now (processEvents st es).values arrivals) := by
  induction es generalizing st with
  | nil => rfl
  | cons e r ih =>
    rw [List.cons_append,
      runLoop_cons_ne_stop now arrivals st e _ (he e (List.mem_cons_self _ _))]
    exact ih (processEvent st e) (fun x hx => he x (List.mem_cons_of_mem _ hx))

theorem mem_values_processEvent (st : AggState) (e : Event) (v : ValueStat)
    (he : e.isEmit = true) (h : Stat.value v ∈ st.values) :
    Stat.value v ∈ (processEvent st e).values := by
  cases e with
  | count c =>
    show Stat.value v ∈ (processCount st c).values
    rw [processCount]
    split
    · exact List.mem_map.mpr ⟨Stat.value v, h, rfl⟩
    · exact List.mem_append.mpr (Or.inl h)
  | value w => exact List.mem_append.mpr (Or.inl h)
  | tick => simp [Event.isEmit] at he
  | flushReq => simp [Event.isEmit] at he
  | stop => simp [Event.isEmit] at he

theorem processEvents_value_mem (es : List Event) (st : AggState) (v : ValueStat)
    (he : ∀ e ∈ es, e.isEmit = true)
    (h : Event.value v ∈ es ∨ Stat.value v ∈ st.values) :
    Stat.value v ∈ (processEvents st es).values := by
  induction es generalizing st with
  | nil =>
    rcases h with h | h
    · simp at h
    · exact h
  | cons e r ih =>
    have he0 : e.isEmit = true := he e (List.mem_cons_self _ _)
    have her : ∀ x ∈ r, x.isEmit = true := fun x hx => he x (List.mem_cons_of_mem _ hx)
    rcases h with h | h
    · rcases List.mem_cons.mp h with h1 | h2
      · subst h1
        exact ih (processValue st v) her
          (Or.inr (List.mem_append.mpr (Or.inr (by simp))))
      · exact ih (processEvent st e) her (Or.inl h2)
    · exact ih (processEvent st e) her
        (Or.inr (mem_values_processEvent st e v he0 h))

theorem stamped_total (es : List Event) (now : Int) (k : String)
    (he : ∀ e ∈ es, e.isEmit = true) (hne : deltasFor es k ≠ []) :
    (countStatsFor (stampCounts now (processEvents initState es).values) k).map
        CountStat.count = [(deltasFor es k).sum] := by
  have htot := processEvents_totals es initState inv_initState he k
  have hbase : countStatsFor initState.values k = [] := rfl
  rw [hbase] at htot
  simp only [List.map_nil] at htot
  rw [countStatsFor_stampCounts, List.map_map]
  have hcomp : (CountStat.count ∘ fun c : CountStat => { c with timestamp := now })
      = CountStat.count := funext fun c => rfl
  rw [hcomp, htot]
  cases h : deltasFor es k with
  | nil => exact absurd h hne
  | cons d ds => rw [mergeTotals_nil_cons]

theorem readCount_of_firstErr_none (l : List (Option String))
    (h : firstErr l = none) : readCount l = l.length := by
  induction l with
  | nil => rfl
  | cons hd tl ih =>
    cases hd with
    | none =>
      rw [firstErr] at h
      rw [readCount, ih h, List.length_cons, Nat.add_comm]
    | some e => simp [firstErr] at h

/-- Counterexample to claim C3 as stated.  A flush of 3001 pending items
dispatches at least two chunks, but when the first result to arrive is an
error the fan-in loop of `Pool.doflush` returns after collecting only one:
`flushing.Done()` runs and `Stop()` returns while the second chunk's
transport call may still be in flight, so stop() does **not** wait until
every transport call of the final batch has completed. -/
theorem c3_stop_early_return_counterexample :
    2 ≤ (doflush 42 (List.replicate 3001 (Stat.value ⟨"a", 1, 0⟩))
        [some "boom", none]).sent.length
    ∧ (doflush 42 (List.replicate 3001 (Stat.value ⟨"a", 1, 0⟩))
        [some "boom", none]).result = some "boom"
    ∧ readCount [some "boom", none] = 1
    ∧ readCount [some "boom", none]
        < (doflush 42 (List.replicate 3001 (Stat.value ⟨"a", 1, 0⟩))
            [some "boom", none]).sent.length := by
  have hne : List.replicate 3001 (Stat.value ⟨"a", 1, 0⟩) ≠ ([] : List Stat) := by
    apply List.ne_nil_of_length_pos
    rw [List.length_replicate]
    norm_num
  have hlen2 : 2 ≤ (doflush 42 (List.replicate 3001 (Stat.value ⟨"a", 1, 0⟩))
      [some "boom", none]).sent.length := by
    rw [doflush_sent 42 _ _ hne]
    refine chunksOf_two _ ?_
    rw [stampCounts_length, List.length_replicate]
    norm_num [chunkSize]
  refine ⟨hlen2, ?_, rfl, ?_⟩
  · rw [doflush_result 42 _ _ hne]
    rfl
  · exact lt_of_lt_of_le Nat.one_lt_two hlen2

/-- Claim C3, amended.  When the serialized loop reaches the stop request
after a run of emissions, it performs one final synchronous `doflush` of
everything pending, terminates, and ignores any later event; every value
emission processed since the last flush is in the pending batch, every
counted key appears as exactly one stamped record whose total is the sum of
its deltas, and the transmitted batch (the concatenation of the dispatched
chunks) is exactly the stamped pending list.  `Stop()` blocks until the
cycle's outcome is determined, and on a fully successful cycle that is only
after the fan-in has collected every chunk's result — but on a failing cycle
the fan-in returns at the first error observed, before sibling chunks'
transport calls have completed (see the counterexample). -/
theorem c3_stop_drains_amended (es rest : List Event) (now : Int)
    (arrivals : List (Option String)) (k : String)
    (he : ∀ e ∈ es, e.isEmit = true) :
    runLoop now arrivals initState (es ++ Event.stop :: rest)
      = some (doflush now (processEvents initState es).values arrivals)
    ∧ (∀ v, Event.value v ∈ es → Stat.value v ∈ (processEvents initState es).values)
    ∧ (deltasFor es k ≠ [] →
        (countStatsFor (stampCounts now (processEvents initState es).values) k).map
            CountStat.count = [(deltasFor es k).sum])
    ∧ ((processEvents initState es).values ≠ [] →
        ((doflush now (processEvents initState es).values arrivals).sent).flatten
          = stampCounts now (processEvents initState es).values)
    ∧ (firstErr arrivals = none → readCount arrivals = arrivals.length) := by
  refine ⟨?_, ?_, fun hk => stamped_total es now k he hk, fun hne => ?_,
    fun hok => readCount_of_firstErr_none arrivals hok⟩
  · refine runLoop_drain now arrivals initState es rest (fun e hee hcontra => ?_)
    have := he e hee
    rw [hcontra] at this
    simp [Event.isEmit] at this
  · intro v hv
    exact processEvents_value_mem es initState v he (Or.inl hv)
  · rw [doflush_sent now _ arrivals hne]
    exact chunksOf_join _

theorem c3_stop_drains_amended_witness :
    (∀ e ∈ [Event.count ⟨"darts", 7, 0⟩, Event.value ⟨"players", 2, 9⟩],
        e.isEmit = true)
    ∧ (runLoop 42 [none] initState
          ([Event.count ⟨"darts", 7, 0⟩, Event.value ⟨"players", 2, 9⟩]
            ++ Event.stop :: [Event.tick])
        = some (doflush 42 (processEvents initState
            [Event.count ⟨"darts", 7, 0⟩, Event.value ⟨"players", 2, 9⟩]).values [none])
      ∧ (∀ v, Event.value v ∈ [Event.count ⟨"darts", 7, 0⟩, Event.value ⟨"players", 2, 9⟩]
          → Stat.value v ∈ (processEvents initState
              [Event.count ⟨"darts", 7, 0⟩, Event.value ⟨"players", 2, 9⟩]).values)
      ∧ (deltasFor [Event.count ⟨"darts", 7, 0⟩, Event.value ⟨"players", 2, 9⟩]
            "darts" ≠ [] →
          (countStatsFor (stampCounts 42 (processEvents initState
              [Event.count ⟨"darts", 7, 0⟩,
                Event.value ⟨"players", 2, 9⟩]).values) "darts").map CountStat.count
            = [(deltasFor [Event.count ⟨"darts", 7, 0⟩,
                Event.value ⟨"players", 2, 9⟩] "darts").sum])
      ∧ ((processEvents initState
            [Event.count ⟨"darts", 7, 0⟩, Event.value ⟨"players", 2, 9⟩]).values ≠ [] →
          ((doflush 42 (processEvents initState
              [Event.count ⟨"darts", 7, 0⟩, Event.value ⟨"players", 2, 9⟩]).values
              [none]).sent).flatten
            = stampCounts 42 (processEvents initState
                [Event.count ⟨"darts", 7, 0⟩, Event.value ⟨"players", 2, 9⟩]).values)
      ∧ (firstErr [none] = none
          → readCount [none] = ([none] : List (Option String)).length)) :=
  ⟨by intro e he; fin_cases he <;> rfl,
    c3_stop_drains_amended [Event.count ⟨"darts", 7, 0⟩, Event.value ⟨"players", 2, 9⟩]
      [Event.tick] 42 [none] "darts" (by intro e he; fin_cases he <;> rfl)⟩

end Statpool
